import Mathlib

/-!
Shallow embedding of `fetch_news.py` (KI-News-Radar): an RSS/podcast
aggregation pipeline that selects new feed entries under per-feed / global /
recency limits, enriches them via a generative-AI collaborator, and persists
the merged collection as a JSON array sorted by publication time.

Conventions of the embedding:
* Python dictionaries produced by `json.loads` are modelled by the inductive
  type `JVal`; JSON numbers are modelled as integers (the script never relies
  on float behaviour).
* Wall-clock instants are modelled as UTC epoch seconds (`Int`).  A
  `struct_time` returned by the feed collaborator is modelled by the epoch
  instant it denotes; the environment is assumed to run with a UTC local time
  (as the scheduled batch job does), so `time.mktime` composed with
  `datetime.fromtimestamp(..., tz=utc)` is the identity on instants.
* Exceptions are modelled with `Except Unit`; a raised-and-not-caught
  exception is `.error ()`.
* External collaborators (feedparser, the Gemini SDK, the file system) are
  modelled at their interface boundary, exactly as the script observes them.
-/

namespace KiNews

set_option linter.unusedVariables false

/-- JSON values as returned by Python `json.loads`: null, booleans, numbers
(modelled as integers), strings, arrays and objects.  Objects parsed from
JSON have pairwise-distinct keys (later duplicates win during parsing). -/
inductive JVal where
  | null
  | bool (b : Bool)
  | num (n : Int)
  | str (s : String)
  | arr (xs : List JVal)
  | obj (kvs : List (String × JVal))

/-- Single-quote character, used when rendering Python `repr` of strings. -/
def squote : String := String.singleton (Char.ofNat 39)

mutual
/-- Models Python `str(v)` on a JSON value: `None`, `True`/`False`, decimal
numbers, the string itself for strings, and container rendering that uses
`repr` for the elements (Python list/dict printing).  `repr`-level escaping
refinements of CPython are not modelled; they do not affect any claim. -/
def pyStr : JVal → String
  | .null => "None"
  | .bool true => "True"
  | .bool false => "False"
  | .num n => toString n
  | .str s => s
  | .arr xs => "[" ++ pyReprSeq xs ++ "]"
  | .obj kvs => "\x7b" ++ pyReprObj kvs ++ "\x7d"

/-- Models Python `repr(v)` on a JSON value (strings get quoted). -/
def pyRepr : JVal → String
  | .null => "None"
  | .bool true => "True"
  | .bool false => "False"
  | .num n => toString n
  | .str s => squote ++ s ++ squote
  | .arr xs => "[" ++ pyReprSeq xs ++ "]"
  | .obj kvs => "\x7b" ++ pyReprObj kvs ++ "\x7d"

/-- Comma-separated `repr` rendering of a list of JSON values. -/
def pyReprSeq : List JVal → String
  | [] => ""
  | [v] => pyRepr v
  | v :: rest => pyRepr v ++ ", " ++ pyReprSeq rest

/-- Comma-separated `repr` rendering of the key/value pairs of an object. -/
def pyReprObj : List (String × JVal) → String
  | [] => ""
  | [(k, v)] => squote ++ k ++ squote ++ ": " ++ pyRepr v
  | (k, v) :: rest => squote ++ k ++ squote ++ ": " ++ pyRepr v ++ ", " ++ pyReprObj rest
end

/-- Models Python `str.strip()` (no arguments): remove leading and trailing
whitespace.  Whitespace is modelled by `Char.isWhitespace`. -/
def pyStrip (s : String) : String :=
  ⟨((s.data.dropWhile Char.isWhitespace).reverse.dropWhile Char.isWhitespace).reverse⟩

/-- Models the Python slice `s[:n]` on strings (Python slices by code
points, exactly the character list of the Lean string). -/
def pyTakeStr (n : Nat) (s : String) : String := ⟨s.data.take n⟩

/-- Truthiness of an optional string (Python: `None` and `""` are falsy). -/
def truthyStr : Option String → Bool
  | none => false
  | some s => !s.isEmpty

/-- Models the Python `or` chain on optional strings: return the first operand
when it is truthy, the second otherwise. -/
def pyOrStr (a b : Option String) : Option String :=
  if truthyStr a then a else b

/-! ### Timestamps

`_iso_from_struct_time` renders an epoch instant as the UTC ISO-8601 string
`datetime.isoformat()` produces (`YYYY-MM-DDTHH:MM:SS+00:00`), and
`fromisoformat` models `datetime.fromisoformat` on the aware-UTC fragment the
script produces and compares (naive datetimes would make the later `>=`
comparison in `_is_recent` raise, and are outside the modelled fragment;
strings outside the fragment are parse failures). -/

/-- Decimal digits of a natural number, most significant first.  The first
argument is recursion fuel; `natDigits` supplies enough. -/
def natDigitsAux : Nat → Nat → List Char
  | 0, _ => []
  | fuel + 1, n =>
    if n < 10 then [Nat.digitChar n]
    else natDigitsAux fuel (n / 10) ++ [Nat.digitChar (n % 10)]

/-- Decimal digits of a natural number, most significant first.  Thirty
digits of fuel cover every component value the modelled datetime range
(years up to 9999, seconds-of-day below 86400) can produce. -/
def natDigits (n : Nat) : List Char := natDigitsAux 30 n

/-- Zero-pad the decimal rendering of `n` to width `w` (wider numbers are kept
as is, as Python `%02d`-style formatting does). -/
def padNum (w n : Nat) : List Char :=
  List.replicate (w - (natDigits n).length) '0' ++ natDigits n

/-- Decides whether a character is an ASCII decimal digit. -/
def isDigitCh (c : Char) : Bool := 48 ≤ c.toNat && c.toNat ≤ 57

/-- Models Python `int(s)` restricted to unsigned decimal digit strings (the
only shape `fromisoformat` feeds it); everything else fails. -/
def digitsToNat? (l : List Char) : Option Nat :=
  if l.isEmpty then none
  else if l.all isDigitCh then
    some (l.foldl (fun a c => a * 10 + (c.toNat - 48)) 0)
  else none

/-- Split a character list at every occurrence of `sep` (the separator is
dropped; `n` separators yield `n + 1` pieces). -/
def splitOnChar (sep : Char) : List Char → List (List Char)
  | [] => [[]]
  | c :: rest =>
    if c = sep then [] :: splitOnChar sep rest
    else
      match splitOnChar sep rest with
      | [] => [[c]]
      | h :: t => (c :: h) :: t

/-- Civil date (year, month, day) of a day count relative to 1970-01-01,
following the standard era-based conversion used by calendar libraries.
Division is Euclidean; on the nonnegative range the script can produce it
agrees with the usual C truncating formulation. -/
def civilFromDays (z0 : Int) : Int × Int × Int :=
  let z := z0 + 719468
  let era := (if 0 ≤ z then z else z - 146096) / 146097
  let doe := z - era * 146097
  let yoe := (doe - doe / 1460 + doe / 36524 - doe / 146096) / 365
  let y := yoe + era * 400
  let doy := doe - (365 * yoe + yoe / 4 - yoe / 100)
  let mp := (5 * doy + 2) / 153
  let d := doy - (153 * mp + 2) / 5 + 1
  let m := if mp < 10 then mp + 3 else mp - 9
  (if m ≤ 2 then y + 1 else y, m, d)

/-- Day count relative to 1970-01-01 of a civil date, inverse companion of
`civilFromDays`. -/
def daysFromCivil (y0 m d : Int) : Int :=
  let y := if m ≤ 2 then y0 - 1 else y0
  let era := (if 0 ≤ y then y else y - 399) / 400
  let yoe := y - era * 400
  let doy := (153 * (if 2 < m then m - 3 else m + 9) + 2) / 5 + d - 1
  let doe := yoe * 365 + yoe / 4 - yoe / 100 + doy
  era * 146097 + doe - 719468

/-- Renders an epoch instant as `datetime.fromtimestamp(t, tz=utc).isoformat()`
does: `YYYY-MM-DDTHH:MM:SS+00:00`. -/
def isoFromEpoch (t : Int) : String :=
  let z := t / 86400
  let sod := (t % 86400).toNat
  let ymd := civilFromDays z
  ⟨padNum 4 ymd.1.toNat ++ '-' ::
    (padNum 2 ymd.2.1.toNat ++ '-' ::
      (padNum 2 ymd.2.2.toNat ++ 'T' ::
        (padNum 2 (sod / 3600) ++ ':' ::
          (padNum 2 (sod % 3600 / 60) ++ ':' ::
            (padNum 2 (sod % 60) ++ '+' :: '0' :: '0' :: ':' :: '0' :: '0' :: [])))))⟩

/-- Character-level core of `fromisoformat`. -/
def fromisoformatL (l : List Char) : Option Int :=
  match splitOnChar 'T' l with
  | [ds, ts] =>
    match splitOnChar '-' ds with
    | [ys, ms, dds] =>
      match splitOnChar '+' ts with
      | [hms, off] =>
        match splitOnChar ':' hms, splitOnChar ':' off with
        | [hs, mins, secs], [ohs, oms] =>
          match digitsToNat? ys, digitsToNat? ms, digitsToNat? dds, digitsToNat? hs,
              digitsToNat? mins, digitsToNat? secs, digitsToNat? ohs, digitsToNat? oms with
          | some y, some mo, some d, some h, some mi, some sec, some oh, some om =>
            some (daysFromCivil (y : Int) (mo : Int) (d : Int) * 86400
              + (h : Int) * 3600 + (mi : Int) * 60 + (sec : Int)
              - ((oh : Int) * 3600 + (om : Int) * 60))
          | _, _, _, _, _, _, _, _ => none
        | _, _ => none
      | _ => none
    | _ => none
  | _ => none

/-- Models `datetime.fromisoformat` on the aware-UTC ISO-8601 fragment this
script produces (`YYYY-MM-DDTHH:MM:SS+HH:MM` after the `Z` replacement),
returning the denoted epoch instant; any other string is a parse failure. -/
def fromisoformat (s : String) : Option Int :=
  fromisoformatL s.data

/-- Models `iso_str.replace("Z", "+00:00")` (single-character pattern, so a
character-wise expansion). -/
def replaceZulu (s : String) : String :=
  ⟨s.data.flatMap fun c =>
    if c = 'Z' then '+' :: '0' :: '0' :: ':' :: '0' :: '0' :: [] else [c]⟩

/-- Source `_is_recent(iso_str, days)`: `True` when `published` lies within the
last `days` days.  `days <= 0` disables the filter; a parse failure of the
timestamp string is caught and also yields `True`.  `now` is the ambient
wall clock (`datetime.now(timezone.utc)`). -/
def _is_recent (now : Int) (iso_str : String) (days : Int) : Bool :=
  if days ≤ 0 then true
  else
    match fromisoformat (replaceZulu iso_str) with
    | none => true
    | some dt => decide (now - days * 86400 ≤ dt)

/-- Source `_iso_from_struct_time(st)`: feedparser `struct_time` (modelled by
the epoch instant it denotes) to a UTC ISO-8601 string; a falsy/absent value
falls back to the current time. -/
def _iso_from_struct_time (now : Int) (st : Option Int) : String :=
  match st with
  | none => isoFromEpoch now
  | some t => isoFromEpoch t

/-! ### Entry normalisation (`_clean_html`, `_find_audio_url`, `_make_uid`) -/

/-- Models `re.sub(r"<[^>]+?>", "", text)`: drop every span that starts at a
`<`, contains at least one character that is not `>`, and ends at the first
following `>`.  The second argument holds, in reverse, the characters of a
candidate tag currently being scanned. -/
def stripTagsGo : Option (List Char) → List Char → List Char
  | none, [] => []
  | some buf, [] => buf.reverse
  | none, c :: rest =>
    if c = '<' then stripTagsGo (some [c]) rest
    else c :: stripTagsGo none rest
  | some buf, c :: rest =>
    if c = '>' then
      if 2 ≤ buf.length then stripTagsGo none rest
      else buf.reverse ++ '>' :: stripTagsGo none rest
    else stripTagsGo (some (c :: buf)) rest

/-- Models `html.unescape` restricted to the common named/numeric entities;
other entity references are left untouched (as `html.unescape` also leaves
unknown ones). -/
def unescapeEntities : List Char → List Char
  | [] => []
  | '&' :: 'a' :: 'm' :: 'p' :: ';' :: rest => '&' :: unescapeEntities rest
  | '&' :: 'l' :: 't' :: ';' :: rest => '<' :: unescapeEntities rest
  | '&' :: 'g' :: 't' :: ';' :: rest => '>' :: unescapeEntities rest
  | '&' :: 'q' :: 'u' :: 'o' :: 't' :: ';' :: rest => '"' :: unescapeEntities rest
  | '&' :: '#' :: '3' :: '9' :: ';' :: rest => Char.ofNat 39 :: unescapeEntities rest
  | '&' :: 'n' :: 'b' :: 's' :: 'p' :: ';' :: rest => Char.ofNat 160 :: unescapeEntities rest
  | c :: rest => c :: unescapeEntities rest

/-- Models `re.sub(r"\s+", " ", s)`: collapse every whitespace run to one
space. -/
def collapseWs : List Char → List Char
  | [] => []
  | [c] => if c.isWhitespace then [' '] else [c]
  | a :: b :: rest =>
    if a.isWhitespace && b.isWhitespace then collapseWs (b :: rest)
    else (if a.isWhitespace then ' ' else a) :: collapseWs (b :: rest)

/-- Source `_clean_html(text)`: strip HTML tags, unescape entities, collapse
whitespace runs, trim. -/
def _clean_html (text : String) : String :=
  if text.isEmpty then ""
  else pyStrip ⟨collapseWs (unescapeEntities (stripTagsGo none text.data))⟩

/-- Decides whether `needle` occurs as a contiguous substring (Python `in`). -/
def hasInfix (needle : List Char) : List Char → Bool
  | [] => needle.isEmpty
  | c :: rest => needle.isPrefixOf (c :: rest) || hasInfix needle (c :: rest).tail

/-- One raw feed entry as observed through the feedparser collaborator.
Optional fields model absent attributes/keys.  `raises` models an entry whose
field access raises during per-entry processing in `get_new_entries` (for
example `time.mktime` overflowing on a crazy `struct_time`, or an empty
`content` list making `[0]` raise); the surrounding per-feed `try` is the
only handler for such an exception. -/
structure RawEntry where
  raises : Bool := false
  eid : Option String := none
  guid : Option String := none
  link : Option String := none
  title : Option String := none
  summary : Option String := none
  contentValue : Option String := none
  published_parsed : Option Int := none
  updated_parsed : Option Int := none
  enclosures : List (String × String) := []
  linksList : List (String × String × String) := []
  deriving DecidableEq, Repr

/-- One configured feed: its display name, content type, and what the
feedparser collaborator returns for its URL (`parseFails` models a retrieval
or parse exception for the whole feed). -/
structure Feed where
  name : String
  ftype : String
  parseFails : Bool := false
  entries : List RawEntry := []
  deriving DecidableEq, Repr

/-- Source `_find_audio_url(entry)`: first enclosure with an audio MIME type,
else first generic link with `rel == "enclosure"` and an audio type, else
empty.  Internal exceptions are caught inside the function (`pass`), so it is
total. -/
def _find_audio_url (e : RawEntry) : String :=
  match e.enclosures.find? (fun enc => hasInfix "audio".data enc.1.data && !enc.2.isEmpty) with
  | some enc => enc.2
  | none =>
    match e.linksList.find? (fun l => l.1 == "enclosure" && hasInfix "audio".data l.2.1.data) with
    | some l => l.2.2
    | none => ""

/-- Source `_make_uid(entry)`: first truthy of id/guid/link, else the
synthesised `no-id::<title[:50]>::<wall clock>` fallback. -/
def _make_uid (now : Int) (e : RawEntry) : String :=
  match pyOrStr (pyOrStr e.eid e.guid) e.link with
  | some s =>
    if s.isEmpty then "no-id::" ++ pyTakeStr 50 (e.title.getD "") ++ "::" ++ toString now
    else s
  | none => "no-id::" ++ pyTakeStr 50 (e.title.getD "") ++ "::" ++ toString now

/-- Canonical item record built by the selection step and enriched later.
`content_raw` is `some _` until the enrichment step pops it; the three
enrichment fields are `none` until `entry.update(coerced)` adds them
(modelling dictionary keys that do not exist yet). -/
structure Item where
  uid : String
  source : String
  title : String
  link : String
  published : String
  content_raw : Option String
  type : String
  audio_url : String
  summary_ai : Option String := none
  topics : Option (List String) := none
  sentiment : Option String := none
  deriving DecidableEq, Repr

/-- Run parameters of the script, overridable through the environment. -/
structure Config where
  MAX_PER_FEED : Int := 3
  MAX_TOTAL : Int := 30
  RECENCY_DAYS : Int := 14
  FIRST_RUN_SHALLOW : Bool := true
  deriving Repr

/-- Models the Python slice `l[:n]` (negative `n` counts from the end). -/
def pySliceTo {α : Type} (n : Int) (l : List α) : List α :=
  if 0 ≤ n then l.take n.toNat else l.take ((l.length : Int) + n).toNat

/-- Per-entry body of the selection loop in `get_new_entries`: either an
exception escapes (`.error ()`, caught only by the per-feed handler), or the
entry is skipped (`.ok none`: already-known uid, or failed recency filter), or
a new `Item` is produced (`.ok (some _)`). -/
def processEntry (now : Int) (days : Int) (existing : List String)
    (name ftype : String) (e : RawEntry) : Except Unit (Option Item) :=
  if e.raises then .error ()
  else
    let uid := _make_uid now e
    if existing.contains uid then .ok none
    else
      let published_iso :=
        match e.published_parsed with
        | some st => _iso_from_struct_time now (some st)
        | none =>
          match e.updated_parsed with
          | some st => _iso_from_struct_time now (some st)
          | none => isoFromEpoch now
      if !_is_recent now published_iso days then .ok none
      else
        let content_field :=
          match pyOrStr e.summary (some (e.contentValue.getD "")) with
          | some s => s
          | none => ""
        let clean_content := _clean_html content_field
        let audio_url := if ftype = "podcast" then _find_audio_url e else ""
        .ok (some
          { uid := uid
            source := name
            title := pyStrip (e.title.getD "")
            link := pyStrip (e.link.getD "")
            published := published_iso
            content_raw := some (pyTakeStr 4000 clean_content)
            type := ftype
            audio_url := audio_url })

/-- Inner entry loop of `get_new_entries` for one feed: stops on the global
cap, on the per-feed cap, and on a raised per-entry exception (which the
per-feed `except` catches, ending this feed's scan while keeping the items
already accumulated).  `picked` is `picked_for_feed`, `acc` the shared
`new_entries` list. -/
def feedScan (cfg : Config) (now : Int) (existing : List String)
    (name ftype : String) : List RawEntry → Int → List Item → List Item
  | [], _, acc => acc
  | e :: rest, picked, acc =>
    if cfg.MAX_TOTAL ≤ (acc.length : Int) then acc
    else if cfg.MAX_PER_FEED ≤ picked then acc
    else
      match processEntry now cfg.RECENCY_DAYS existing name ftype e with
      | .error _ => acc
      | .ok none => feedScan cfg now existing name ftype rest picked acc
      | .ok (some it) => feedScan cfg now existing name ftype rest (picked + 1) (acc ++ [it])

/-- Source `get_new_entries(existing_keys)`: scan the configured feeds in
order, newest entries first (feedparser lists are reversed), restricted to the
newest `MAX_PER_FEED` per feed on a shallow first run, respecting the global
cap across feeds.  A feed whose retrieval/parse raises contributes nothing;
the run continues with the next feed. -/
def get_new_entries (cfg : Config) (now : Int) (existing : List String) :
    List Feed → List Item → List Item
  | [], acc => acc
  | f :: rest, acc =>
    if cfg.MAX_TOTAL ≤ (acc.length : Int) then acc
    else if f.parseFails then get_new_entries cfg now existing rest acc
    else
      let first_run := existing.isEmpty && cfg.FIRST_RUN_SHALLOW
      let entries := f.entries.reverse
      let entries := if first_run then pySliceTo cfg.MAX_PER_FEED entries else entries
      get_new_entries cfg now existing rest
        (feedScan cfg now existing f.name f.ftype entries 0 acc)

/-! ### Enrichment (`_coerce_result`, `process_with_gemini`) -/

/-- Result of `_coerce_result`: after coercion the summary and sentiment are
strings and the topics a list of strings (so "all elements are strings" holds
by construction, mirroring `[str(t) for t in ...]`). -/
structure CoercedResult where
  summary_ai : String
  topics : List String
  sentiment : String
  deriving DecidableEq, Repr

/-- Looks a key up in a parsed JSON object, with a default (Python
`obj.get(key, default)`). -/
def objGetD (obj : List (String × JVal)) (k : String) (dflt : JVal) : JVal :=
  match obj.find? (fun p => p.1 == k) with
  | some p => p.2
  | none => dflt

/-- Source `_coerce_result(obj)`: validate/normalise the generator output and
fill defaults — placeholder summary when absent, topics coerced to a list of
strings truncated/padded to exactly 3, sentiment forced into the 3-label set,
summary stringified and stripped. -/
def _coerce_result (obj : List (String × JVal)) : CoercedResult :=
  let summary0 := objGetD obj "summary_ai" (.str "Zusammenfassung konnte nicht erstellt werden.")
  let topics0 := objGetD obj "topics" (.arr [])
  let sentiment0 := objGetD obj "sentiment" (.str "neutral")
  let topicsL : List JVal :=
    match topics0 with
    | .arr xs => xs
    | _ => []
  let topics1 := (topicsL.map pyStr).take 3
  let topics2 := topics1 ++ List.replicate (3 - topics1.length) ""
  let sentiment1 :=
    match sentiment0 with
    | .str s => if s = "positiv" ∨ s = "neutral" ∨ s = "negativ" then s else "neutral"
    | _ => "neutral"
  { summary_ai := pyStrip (pyStr summary0)
    topics := topics2
    sentiment := sentiment1 }

/-- One per-item enrichment attempt of `process_with_gemini`.  The whole
generator call / JSON parse / coercion `try` block is modelled at its
boundary by `outcome`: `.ok obj` is a successfully parsed object (after the
direct parse or the regex `{...}` rescue), `.error ()` any exception in the
block (network error, unparsable response, non-object payload), in which case
the `except` arm applies `_coerce_result({})`.  The `finally` arm pops
`content_raw` in both cases. -/
def enrichStep (e : Item) (outcome : Except Unit (List (String × JVal))) : Item :=
  let c :=
    match outcome with
    | .ok obj => _coerce_result obj
    | .error _ => _coerce_result []
  { e with
    summary_ai := some c.summary_ai
    topics := some c.topics
    sentiment := some c.sentiment
    content_raw := none }

/-- Main loop of `process_with_gemini`: stops when the remaining-budget
counter (initialised to `MAX_TOTAL`) reaches zero or the wall-clock budget is
exhausted (`budgetHit i` models `time.time() - start_ts >= RUN_BUDGET_SEC` at
the start of iteration `i`); otherwise enriches the next entry (outcome
`oc i`) and appends it to `processed_entries`. -/
def processLoop (budgetHit : Nat → Bool) (oc : Nat → Except Unit (List (String × JVal))) :
    List Item → Nat → Int → List Item → List Item
  | [], _, _, acc => acc
  | e :: rest, i, remaining, acc =>
    if remaining ≤ 0 then acc
    else if budgetHit i then acc
    else processLoop budgetHit oc rest (i + 1) (remaining - 1) (acc ++ [enrichStep e (oc i)])

/-- Source `process_with_gemini(entries)`. -/
def process_with_gemini (cfg : Config) (budgetHit : Nat → Bool)
    (oc : Nat → Except Unit (List (String × JVal))) (entries : List Item) : List Item :=
  processLoop budgetHit oc entries 0 cfg.MAX_TOTAL []

/-! ### Persistence (`save_data`, merge loop of `__main__`) -/

/-- Source `save_data(all_items)` up to serialisation: sort by the
`published` field, newest first (`sorted(..., reverse=True)` on ISO-8601
strings; every pipeline item carries `published`, matching the
`x.get("published", "")` key function).  The sorted list is what is written
to `data.json`. -/
def save_data (all_items : List Item) : List Item :=
  all_items.mergeSort fun a b => decide (b.published ≤ a.published)

/-- Insert-or-overwrite for a string-keyed mapping with Python `dict`
semantics: an existing key keeps its position and gets the new value, a new
key is appended. -/
def structInsert : List (String × Item) → String → Item → List (String × Item)
  | [], k, v => [(k, v)]
  | p :: t, k, v => if p.1 == k then (k, v) :: t else p :: structInsert t k v

/-- Merge loop of `__main__`: `existing_data[uid] = item` for each processed
item, keyed by `item.get("uid") or item.get("link")`, skipping items whose
key is falsy. -/
def mergeStruct (m : List (String × Item)) : List Item → List (String × Item)
  | [] => m
  | it :: rest =>
    let uid := if it.uid.isEmpty then it.link else it.uid
    mergeStruct (if uid.isEmpty then m else structInsert m uid it) rest

/-- Effect of one run on the persisted file: either it is left untouched
(no write system call at all) or it is rewritten with the serialised items. -/
inductive FileEffect where
  | untouched
  | rewritten (items : List Item)
  deriving DecidableEq, Repr

/-- File effect of the `__main__` block: fetch new entries; only when that
list is non-empty run enrichment, merge into the loaded mapping and rewrite
`data.json`; otherwise the file is not touched.  `existing` is the mapping
`load_existing_data` returned for this run. -/
def mainFileEffect (cfg : Config) (now : Int) (budgetHit : Nat → Bool)
    (oc : Nat → Except Unit (List (String × JVal)))
    (existing : List (String × Item)) (feeds : List Feed) : FileEffect :=
  let new_entries := get_new_entries cfg now (existing.map Prod.fst) feeds []
  if new_entries.isEmpty then .untouched
  else
    let processed := process_with_gemini cfg budgetHit oc new_entries
    .rewritten (save_data ((mergeStruct existing processed).map Prod.snd))

/-! ### Loading the persisted collection (`load_existing_data`) and the merge
invariants, at JSON-value level (the prior file can contain anything). -/

/-- Hashable scalar JSON values, the only ones usable as Python `dict` keys
(using a list or object as a key raises `TypeError: unhashable`). -/
inductive JKey where
  | null
  | bool (b : Bool)
  | num (n : Int)
  | str (s : String)
  deriving DecidableEq, Repr

/-- Python truthiness of a JSON value. -/
def truthy : JVal → Bool
  | .null => false
  | .bool b => b
  | .num n => !(n == 0)
  | .str s => !s.isEmpty
  | .arr xs => !xs.isEmpty
  | .obj kvs => !kvs.isEmpty

/-- Models `item.get(k)` on a parsed JSON object (missing key gives `None`). -/
def objGetJ (v : JVal) (k : String) : JVal :=
  match v with
  | .obj kvs => objGetD kvs k .null
  | _ => .null

/-- Models the Python `or` of two JSON values. -/
def pyOrJ (a b : JVal) : JVal := if truthy a then a else b

/-- The `item.get("uid") or item.get("link")` key expression used both by
`load_existing_data` and by the `__main__` merge loop. -/
def itemKey (v : JVal) : JVal := pyOrJ (objGetJ v "uid") (objGetJ v "link")

/-- Using a JSON value as a `dict` key: scalars are hashable, containers raise
`TypeError`. -/
def toKey : JVal → Except Unit JKey
  | .null => .ok .null
  | .bool b => .ok (.bool b)
  | .num n => .ok (.num n)
  | .str s => .ok (.str s)
  | .arr _ => .error ()
  | .obj _ => .error ()

/-- Insert-or-overwrite with Python `dict` semantics on scalar keys: an
existing key keeps its position and gets the new value, a new key is
appended. -/
def dictInsert : List (JKey × JVal) → JKey → JVal → List (JKey × JVal)
  | [], k, v => [(k, v)]
  | p :: t, k, v => if p.1 == k then (k, v) :: t else p :: dictInsert t k v

/-- First value stored at key `k` (Python `m[k]` as far as it is defined). -/
def dictLookup (m : List (JKey × JVal)) (k : JKey) : Option JVal :=
  (m.find? fun p => p.1 == k).map Prod.snd

/-- The shared per-item store step: compute the key expression; a falsy key
skips the item, a truthy container key raises, a truthy scalar key
inserts/overwrites. -/
def storeInsert (m : List (JKey × JVal)) (item : List (String × JVal)) :
    Except Unit (List (JKey × JVal)) :=
  let uid := itemKey (.obj item)
  if truthy uid then
    match toKey uid with
    | .ok k => .ok (dictInsert m k (.obj item))
    | .error _ => .error ()
  else .ok m

/-- State of `data.json` before a run, at the collaborator boundary:
absent; present but unreadable (`open` raises an `OSError` that is not a
`FileNotFoundError`); or readable with either undecodable text
(`json.JSONDecodeError`) or a parsed JSON value. -/
inductive FileState where
  | absent
  | ioError
  | content (parsed : Option JVal)

/-- Loop body of `load_existing_data` over the parsed top-level array: each
item must be an object (`item.get` on anything else raises an uncaught
`AttributeError`). -/
def loadItems : List JVal → List (JKey × JVal) → Except Unit (List (JKey × JVal))
  | [], m => .ok m
  | .obj kvs :: rest, m =>
    match storeInsert m kvs with
    | .ok m2 => loadItems rest m2
    | .error e => .error e
  | _ :: rest, m => .error ()

/-- Source `load_existing_data()`: absent file and undecodable JSON text give
the empty mapping (only `json.JSONDecodeError` and `FileNotFoundError` are
caught); an unreadable file raises; parsed content is iterated — a non-array
iterable whose elements are not dictionaries (object keys, string characters)
raises on `.get`, a non-iterable raises `TypeError`, and an empty iterable
yields the empty mapping. -/
def load_existing_data : FileState → Except Unit (List (JKey × JVal))
  | .absent => .ok []
  | .ioError => .error ()
  | .content none => .ok []
  | .content (some j) =>
    match j with
    | .arr items => loadItems items []
    | .obj kvs => if kvs.isEmpty then .ok [] else .error ()
    | .str s => if s.isEmpty then .ok [] else .error ()
    | .null => .error ()
    | .bool _ => .error ()
    | .num _ => .error ()

/-- Merge loop of `__main__` at JSON-value level: every processed item (always
a dictionary built by the pipeline) is stored at its
`item.get("uid") or item.get("link")` key when that key is truthy. -/
def mergeNew (m : List (JKey × JVal)) : List (List (String × JVal)) →
    Except Unit (List (JKey × JVal))
  | [] => .ok m
  | item :: rest =>
    match storeInsert m item with
    | .ok m2 => mergeNew m2 rest
    | .error e => .error e

/-- Well-formedness of the uid-keyed store: keys are pairwise distinct, and
every entry is stored exactly at the (truthy, hashable) key its own
`uid`-or-`link` expression denotes. -/
def StoreWF (m : List (JKey × JVal)) : Prop :=
  (m.map Prod.fst).Nodup ∧
    ∀ p ∈ m, truthy (itemKey p.2) = true ∧ toKey (itemKey p.2) = .ok p.1

/-! ### Concrete fixtures used by witnesses and counterexamples -/

/-- Fixture instant: 2023-11-14T22:13:20+00:00. -/
def now0 : Int := 1700000000

/-- Fixture entry processed first in its feed (selected). -/
def entryG1 : RawEntry :=
  { eid := some "g1", title := some "Good One", published_parsed := some 1699990000 }

/-- Fixture entry whose per-entry processing raises. -/
def entryBad : RawEntry := { raises := true, eid := some "b" }

/-- Fixture entry processed after `entryBad` in the same feed. -/
def entryG2 : RawEntry :=
  { eid := some "g2", title := some "Good Two", published_parsed := some 1699980000 }

/-- Feed whose reversed scan order is `entryG1`, `entryBad`, `entryG2`. -/
def feedWithBad : Feed :=
  { name := "F", ftype := "article", entries := [entryG2, entryBad, entryG1] }

/-- Same feed without the raising entry. -/
def feedNoBad : Feed :=
  { name := "F", ftype := "article", entries := [entryG2, entryG1] }

/-- Item produced for `entryG1`. -/
def itemG1 : Item :=
  { uid := "g1", source := "F", title := "Good One", link := ""
    published := "2023-11-14T19:26:40+00:00", content_raw := some ""
    type := "article", audio_url := "" }

/-- Item produced for `entryG2`. -/
def itemG2 : Item :=
  { uid := "g2", source := "F", title := "Good Two", link := ""
    published := "2023-11-14T16:40:00+00:00", content_raw := some ""
    type := "article", audio_url := "" }

/-- Fixture pre-enrichment item. -/
def itemP : Item :=
  { uid := "u", source := "s", title := "t", link := "l", published := "p"
    content_raw := some "c", type := "article", audio_url := "" }

/-- Enriched form of `itemP` after a failed generator attempt. -/
def itemPdone : Item :=
  { itemP with
    content_raw := none
    summary_ai := some "Zusammenfassung konnte nicht erstellt werden."
    topics := some ["", "", ""]
    sentiment := some "neutral" }

/-- Legacy stored item with an empty (falsy) `uid` and link `"B"`. -/
def legacyB : JVal := .obj [("uid", .str ""), ("link", .str "B")]

/-- Legacy stored item with an empty (falsy) `uid` and link `"C"`. -/
def legacyC : JVal := .obj [("uid", .str ""), ("link", .str "C")]

/-- Prior `data.json` content holding the two legacy items. -/
def fileLegacy : FileState := .content (some (.arr [legacyB, legacyC]))

/-! ## Helper lemmas -/

theorem dropWhile_head?_false {α : Type} (p : α → Bool) (l : List α) (c : α)
    (h : (l.dropWhile p).head? = some c) : p c = false := by
  induction l with
  | nil => simp [List.dropWhile] at h
  | cons a t ih =>
    rw [List.dropWhile_cons] at h
    by_cases hpa : p a = true
    · rw [if_pos hpa] at h
      exact ih h
    · rw [if_neg hpa] at h
      simp only [List.head?_cons, Option.some.injEq] at h
      subst h
      simpa using hpa

theorem dropWhile_getLast? {α : Type} (p : α → Bool) (l : List α)
    (h : l.dropWhile p ≠ []) : (l.dropWhile p).getLast? = l.getLast? := by
  induction l with
  | nil => simp [List.dropWhile] at h
  | cons a t ih =>
    by_cases hpa : p a = true
    · rw [List.dropWhile_cons, if_pos hpa] at h ⊢
      rw [ih h]
      cases t with
      | nil => simp [List.dropWhile] at h
      | cons b t2 => rw [List.getLast?_cons_cons]
    · rw [List.dropWhile_cons, if_neg hpa]

theorem pyStrip_data (s : String) :
    (pyStrip s).data
      = ((s.data.dropWhile Char.isWhitespace).reverse.dropWhile Char.isWhitespace).reverse :=
  rfl

theorem pyStrip_head?_not_ws (s : String) (c : Char)
    (h : (pyStrip s).data.head? = some c) : c.isWhitespace = false := by
  rw [pyStrip_data, List.head?_reverse] at h
  have hne : (s.data.dropWhile Char.isWhitespace).reverse.dropWhile Char.isWhitespace ≠ [] := by
    intro he
    rw [he] at h
    simp at h
  rw [dropWhile_getLast? _ _ hne, List.getLast?_reverse] at h
  exact dropWhile_head?_false _ _ _ h

theorem pyStrip_getLast?_not_ws (s : String) (c : Char)
    (h : (pyStrip s).data.getLast? = some c) : c.isWhitespace = false := by
  rw [pyStrip_data, List.getLast?_reverse] at h
  exact dropWhile_head?_false _ _ _ h

/-! ## C1 — totality and well-formedness of `_coerce_result` -/

/-- C1: for every dictionary passed to `_coerce_result` (including the empty
dictionary and dictionaries with missing, extra, or wrongly-typed keys), the
result has a `topics` list of length exactly 3 (whose elements are strings by
the very type of `CoercedResult.topics`, mirroring `[str(t) for t in ...]`),
a `sentiment` among the three allowed labels, and a `summary_ai` string that
carries no leading or trailing whitespace, with the fixed placeholder
substituted when the key is absent. -/
theorem coerce_result_wellformed (obj : List (String × JVal)) :
    (_coerce_result obj).topics.length = 3
    ∧ ((_coerce_result obj).sentiment = "positiv" ∨ (_coerce_result obj).sentiment = "neutral"
        ∨ (_coerce_result obj).sentiment = "negativ")
    ∧ (∀ c, (_coerce_result obj).summary_ai.data.head? = some c → c.isWhitespace = false)
    ∧ (∀ c, (_coerce_result obj).summary_ai.data.getLast? = some c → c.isWhitespace = false)
    ∧ (obj.find? (fun p => p.1 == "summary_ai") = none →
        (_coerce_result obj).summary_ai = "Zusammenfassung konnte nicht erstellt werden.") := by
  refine ⟨?_, ?_, ?_, ?_, ?_⟩
  · simp only [_coerce_result, List.length_append, List.length_replicate]
    have := List.length_take_le 3
      ((match objGetD obj "topics" (.arr []) with
        | .arr xs => xs
        | _ => ([] : List JVal)).map pyStr)
    omega
  · cases he : objGetD obj "sentiment" (JVal.str "neutral") with
    | str s =>
      simp only [_coerce_result, he]
      by_cases h : s = "positiv" ∨ s = "neutral" ∨ s = "negativ"
      · rw [if_pos h]
        tauto
      · rw [if_neg h]
        tauto
    | null => simp [_coerce_result, he]
    | bool b => simp [_coerce_result, he]
    | num n => simp [_coerce_result, he]
    | arr xs => simp [_coerce_result, he]
    | obj kvs => simp [_coerce_result, he]
  · intro c h
    exact pyStrip_head?_not_ws _ c h
  · intro c h
    exact pyStrip_getLast?_not_ws _ c h
  · intro h
    simp only [_coerce_result, objGetD, h]
    rfl

/-- Witness for C1 at the empty dictionary (the generator answered nothing
usable). -/
theorem coerce_result_wellformed_witness :
    (_coerce_result []).topics.length = 3
    ∧ ((_coerce_result []).sentiment = "positiv" ∨ (_coerce_result []).sentiment = "neutral"
        ∨ (_coerce_result []).sentiment = "negativ")
    ∧ (∀ c, (_coerce_result []).summary_ai.data.head? = some c → c.isWhitespace = false)
    ∧ (∀ c, (_coerce_result []).summary_ai.data.getLast? = some c → c.isWhitespace = false)
    ∧ (([] : List (String × JVal)).find? (fun p => p.1 == "summary_ai") = none →
        (_coerce_result []).summary_ai = "Zusammenfassung konnte nicht erstellt werden.") :=
  coerce_result_wellformed []

/-! ## C5 — persisted order is non-increasing by `published` -/

/-- C5: after every successful save, the persisted array is in non-increasing
order of the `published` field under lexicographic (ISO-8601) string
comparison; `save_data` is the only writer, so this holds at rest after every
run that writes the file. -/
theorem save_data_sorted (items : List Item) :
    (save_data items).Pairwise fun a b => b.published ≤ a.published := by
  have h := @List.sorted_mergeSort Item
    (fun a b : Item => decide (b.published ≤ a.published))
    (fun a b c hab hbc => by
      simp only [decide_eq_true_eq] at *
      exact le_trans hbc hab)
    (fun a b => by
      simp only [Bool.or_eq_true, decide_eq_true_eq]
      exact le_total _ _)
    items
  unfold save_data
  exact h.imp fun hab => of_decide_eq_true hab

/-! ## C8 — no new items, no rewrite -/

/-- C8: when the selection step produces no new items, `__main__` takes the
else-branch and never opens the data file for writing, so its contents stay
exactly as they were. -/
theorem no_new_no_rewrite (cfg : Config) (now : Int) (budgetHit : Nat → Bool)
    (oc : Nat → Except Unit (List (String × JVal)))
    (existing : List (String × Item)) (feeds : List Feed)
    (h : get_new_entries cfg now (existing.map Prod.fst) feeds [] = []) :
    mainFileEffect cfg now budgetHit oc existing feeds = .untouched := by
  simp [mainFileEffect, h]

/-- Witness for C8: a run over an empty feed list with one stored item. -/
theorem no_new_no_rewrite_witness :
    get_new_entries {} now0 ([("k", itemP)].map Prod.fst) [] [] = []
    ∧ mainFileEffect {} now0 (fun _ => false) (fun _ => .error ()) [("k", itemP)] []
        = .untouched :=
  ⟨rfl, no_new_no_rewrite {} now0 (fun _ => false) (fun _ => .error ()) [("k", itemP)] [] rfl⟩

/-! ## C9 — what the load step actually recovers from -/

/-- C9 counterexample: the claim says any read or parse failure of any prior
file state yields the empty mapping and loading never raises; but a readable
file whose valid JSON content is `[42]` makes `item.get` raise an uncaught
`AttributeError`, and a present-but-unreadable file makes `open` raise an
uncaught `OSError` (only `json.JSONDecodeError` and `FileNotFoundError` are
caught). -/
theorem load_raises_counterexample :
    load_existing_data (.content (some (.arr [.num 42]))) = .error ()
    ∧ load_existing_data .ioError = .error () :=
  ⟨rfl, rfl⟩

/-- C9 amended: an absent file or undecodable JSON text yields the empty
mapping; a JSON array of objects (with hashable uid/link keys) loads
successfully; but an unreadable file raises out of the load step. -/
theorem load_error_handling (items : List (List (String × JVal)))
    (hk : ∀ item ∈ items, truthy (itemKey (.obj item)) = true →
        ∃ k, toKey (itemKey (.obj item)) = .ok k) :
    load_existing_data .absent = .ok []
    ∧ load_existing_data (.content none) = .ok []
    ∧ load_existing_data .ioError = .error ()
    ∧ ∃ m, load_existing_data (.content (some (.arr (items.map JVal.obj)))) = .ok m := by
  refine ⟨rfl, rfl, rfl, ?_⟩
  suffices h : ∀ (its : List (List (String × JVal))),
      (∀ item ∈ its, truthy (itemKey (.obj item)) = true →
        ∃ k, toKey (itemKey (.obj item)) = .ok k) →
      ∀ m0, ∃ m, loadItems (its.map JVal.obj) m0 = .ok m by
    simpa [load_existing_data] using h items hk []
  intro its
  induction its with
  | nil =>
    intro _ m0
    exact ⟨m0, rfl⟩
  | cons it rest ih =>
    intro hks m0
    have hins : ∃ m1, storeInsert m0 it = .ok m1 := by
      by_cases ht : truthy (itemKey (.obj it)) = true
      · obtain ⟨k, hkk⟩ := hks it (List.mem_cons_self it rest) ht
        exact ⟨dictInsert m0 k (.obj it), by simp [storeInsert, ht, hkk]⟩
      · exact ⟨m0, by simp [storeInsert, Bool.of_not_eq_true ht]⟩
    obtain ⟨m1, hm1⟩ := hins
    obtain ⟨m, hm⟩ := ih (fun item hmem => hks item (List.mem_cons_of_mem _ hmem)) m1
    exact ⟨m, by simp [loadItems, hm1, hm]⟩

/-- Witness for the amended C9 at a one-object prior file. -/
theorem load_error_handling_witness :
    (∀ item ∈ [[("uid", JVal.str "X")]], truthy (itemKey (.obj item)) = true →
        ∃ k, toKey (itemKey (.obj item)) = .ok k)
    ∧ (load_existing_data .absent = .ok []
        ∧ load_existing_data (.content none) = .ok []
        ∧ load_existing_data .ioError = .error ()
        ∧ ∃ m, load_existing_data
            (.content (some (.arr ([[("uid", JVal.str "X")]].map JVal.obj)))) = .ok m) := by
  have hk : ∀ item ∈ [[("uid", JVal.str "X")]], truthy (itemKey (.obj item)) = true →
      ∃ k, toKey (itemKey (.obj item)) = .ok k := by
    intro item hm _
    simp only [List.mem_singleton] at hm
    subst hm
    exact ⟨.str "X", rfl⟩
  exact ⟨hk, load_error_handling [[("uid", JVal.str "X")]] hk⟩

/-! ## C2 — a per-entry failure aborts the rest of that feed -/

set_option maxRecDepth 8000 in
/-- C2 counterexample: the claim says a failure while processing one entry
skips only that entry and the remaining entries of the feed are still
considered.  With the raising `entryBad` between two good entries (scan
order `entryG1`, `entryBad`, `entryG2`), only `entryG1` is selected; without
the bad entry, both good entries are selected.  The per-feed `try/except`
wraps the whole entry loop, so the exception ends the feed's scan. -/
theorem entry_failure_skips_rest_counterexample :
    get_new_entries {} now0 ["seen"] [feedWithBad] [] = [itemG1]
    ∧ get_new_entries {} now0 ["seen"] [feedNoBad] [] = [itemG1, itemG2] :=
  ⟨rfl, rfl⟩

/-- C2 amended: an exception raised while processing one entry is caught by
the per-feed handler, so it ends the scan of that feed: the entries after the
raising one contribute nothing (the scan result does not depend on them),
while the items already selected are kept and the run continues with the
remaining feeds. -/
theorem entry_failure_aborts_feed (cfg : Config) (now : Int) (existing : List String)
    (name ftype : String) (pre post : List RawEntry) (bad : RawEntry) (picked : Int)
    (acc : List Item) (hb : bad.raises = true) :
    feedScan cfg now existing name ftype (pre ++ bad :: post) picked acc
      = feedScan cfg now existing name ftype (pre ++ [bad]) picked acc := by
  induction pre generalizing picked acc with
  | nil =>
    by_cases h1 : cfg.MAX_TOTAL ≤ (acc.length : Int)
    · simp only [List.nil_append, feedScan, if_pos h1]
    · by_cases h2 : cfg.MAX_PER_FEED ≤ picked
      · simp only [List.nil_append, feedScan, if_neg h1, if_pos h2]
      · have hpe : processEntry now cfg.RECENCY_DAYS existing name ftype bad = .error () := by
          simp [processEntry, hb]
        simp only [List.nil_append, feedScan, if_neg h1, if_neg h2, hpe]
  | cons e pre ih =>
    by_cases h1 : cfg.MAX_TOTAL ≤ (acc.length : Int)
    · simp only [List.cons_append, feedScan, if_pos h1]
    · by_cases h2 : cfg.MAX_PER_FEED ≤ picked
      · simp only [List.cons_append, feedScan, if_neg h1, if_pos h2]
      · cases hpe : processEntry now cfg.RECENCY_DAYS existing name ftype e with
        | error u =>
          simp only [List.cons_append, feedScan, if_neg h1, if_neg h2, hpe]
        | ok o =>
          cases o with
          | none =>
            simp only [List.cons_append, feedScan, if_neg h1, if_neg h2, hpe]
            exact ih picked acc
          | some it =>
            simp only [List.cons_append, feedScan, if_neg h1, if_neg h2, hpe]
            exact ih (picked + 1) (acc ++ [it])

/-- Witness for the amended C2 on the fixture feed. -/
theorem entry_failure_aborts_feed_witness :
    entryBad.raises = true
    ∧ feedScan {} now0 ["seen"] "F" "article" ([entryG1] ++ entryBad :: [entryG2]) 0 []
        = feedScan {} now0 ["seen"] "F" "article" ([entryG1] ++ [entryBad]) 0 [] :=
  ⟨rfl, entry_failure_aborts_feed {} now0 ["seen"] "F" "article"
    [entryG1] [entryG2] entryBad 0 [] rfl⟩

/-! ## C3 — cap invariants of the selection step -/

theorem feedScan_length_le (cfg : Config) (now : Int) (existing : List String)
    (name ftype : String) (entries : List RawEntry) (picked : Int) (acc : List Item)
    (h : (acc.length : Int) ≤ cfg.MAX_TOTAL) :
    ((feedScan cfg now existing name ftype entries picked acc).length : Int)
      ≤ cfg.MAX_TOTAL := by
  induction entries generalizing picked acc with
  | nil => simpa [feedScan] using h
  | cons e rest ih =>
    by_cases h1 : cfg.MAX_TOTAL ≤ (acc.length : Int)
    · simp only [feedScan, if_pos h1]
      exact h
    · by_cases h2 : cfg.MAX_PER_FEED ≤ picked
      · simp only [feedScan, if_neg h1, if_pos h2]
        exact h
      · cases hpe : processEntry now cfg.RECENCY_DAYS existing name ftype e with
        | error u =>
          simp only [feedScan, if_neg h1, if_neg h2, hpe]
          exact h
        | ok o =>
          cases o with
          | none =>
            simp only [feedScan, if_neg h1, if_neg h2, hpe]
            exact ih picked acc h
          | some it =>
            simp only [feedScan, if_neg h1, if_neg h2, hpe]
            refine ih (picked + 1) (acc ++ [it]) ?_
            rw [List.length_append, List.length_singleton]
            push_cast
            omega

theorem get_new_entries_length_le (cfg : Config) (now : Int) (existing : List String)
    (feeds : List Feed) (acc : List Item) (h : (acc.length : Int) ≤ cfg.MAX_TOTAL) :
    ((get_new_entries cfg now existing feeds acc).length : Int) ≤ cfg.MAX_TOTAL := by
  induction feeds generalizing acc with
  | nil => simpa [get_new_entries] using h
  | cons f rest ih =>
    by_cases h1 : cfg.MAX_TOTAL ≤ (acc.length : Int)
    · simp only [get_new_entries, if_pos h1]
      exact h
    · by_cases h2 : f.parseFails = true
      · simp only [get_new_entries, if_neg h1, if_pos h2]
        exact ih acc h
      · simp only [get_new_entries, if_neg h1, if_neg h2]
        exact ih _ (feedScan_length_le cfg now existing f.name f.ftype _ 0 acc h)

theorem processEntry_source (now days : Int) (existing : List String)
    (name ftype : String) (e : RawEntry) (it : Item)
    (h : processEntry now days existing name ftype e = .ok (some it)) :
    it.source = name := by
  simp only [processEntry] at h
  repeat' split at h
  all_goals first
    | exact Except.noConfusion h
    | exact Option.noConfusion (Except.ok.inj h)
    | (simp only [Except.ok.injEq, Option.some.injEq] at h; subst h; rfl)

theorem feedScan_append_spec (cfg : Config) (now : Int) (existing : List String)
    (name ftype : String) (entries : List RawEntry) (picked : Int) (acc : List Item)
    (hpk : picked ≤ cfg.MAX_PER_FEED) :
    ∃ added, feedScan cfg now existing name ftype entries picked acc = acc ++ added
      ∧ (∀ it ∈ added, it.source = name)
      ∧ (added.length : Int) ≤ cfg.MAX_PER_FEED - picked := by
  induction entries generalizing picked acc with
  | nil => exact ⟨[], by simp [feedScan], by simp, by simp; omega⟩
  | cons e rest ih =>
    by_cases h1 : cfg.MAX_TOTAL ≤ (acc.length : Int)
    · exact ⟨[], by simp [feedScan, if_pos h1], by simp, by simp; omega⟩
    · by_cases h2 : cfg.MAX_PER_FEED ≤ picked
      · exact ⟨[], by simp [feedScan, if_neg h1, if_pos h2], by simp, by simp; omega⟩
      · cases hpe : processEntry now cfg.RECENCY_DAYS existing name ftype e with
        | error u =>
          exact ⟨[], by simp [feedScan, if_neg h1, if_neg h2, hpe], by simp, by simp; omega⟩
        | ok o =>
          cases o with
          | none =>
            obtain ⟨added, heq, hsrc, hlen⟩ := ih picked acc hpk
            refine ⟨added, ?_, hsrc, hlen⟩
            simp only [feedScan, if_neg h1, if_neg h2, hpe]
            exact heq
          | some it =>
            obtain ⟨added, heq, hsrc, hlen⟩ := ih (picked + 1) (acc ++ [it]) (by omega)
            refine ⟨it :: added, ?_, ?_, ?_⟩
            · simp only [feedScan, if_neg h1, if_neg h2, hpe]
              rw [heq, List.append_assoc, List.singleton_append]
            · intro x hx
              rcases List.mem_cons.mp hx with hx | hx
              · subst hx
                exact processEntry_source now cfg.RECENCY_DAYS existing name ftype e x hpe
              · exact hsrc x hx
            · rw [List.length_cons]
              push_cast
              omega

theorem get_new_entries_filter_le (cfg : Config) (now : Int) (existing : List String)
    (feeds : List Feed) (acc : List Item) (hP : 0 ≤ cfg.MAX_PER_FEED)
    (hnames : (feeds.map Feed.name).Nodup) (n : String) :
    (((get_new_entries cfg now existing feeds acc).filter
        fun it => it.source == n).length : Int)
      ≤ ((acc.filter fun it => it.source == n).length : Int)
        + (if n ∈ feeds.map Feed.name then cfg.MAX_PER_FEED else 0) := by
  induction feeds generalizing acc with
  | nil =>
    simp [get_new_entries]
  | cons f rest ih =>
    rw [List.map_cons, List.nodup_cons] at hnames
    obtain ⟨hfn, hnames'⟩ := hnames
    have hsplit : (if n ∈ f.name :: rest.map Feed.name then cfg.MAX_PER_FEED else 0)
        = (if n = f.name then cfg.MAX_PER_FEED else
            if n ∈ rest.map Feed.name then cfg.MAX_PER_FEED else 0) := by
      by_cases hn : n = f.name
      · simp [hn]
      · simp [List.mem_cons, hn]
    rw [List.map_cons, hsplit]
    by_cases h1 : cfg.MAX_TOTAL ≤ (acc.length : Int)
    · simp only [get_new_entries, if_pos h1]
      have hnn : (0 : Int) ≤ (if n = f.name then cfg.MAX_PER_FEED
          else if n ∈ List.map Feed.name rest then cfg.MAX_PER_FEED else 0) := by
        split
        · exact hP
        · split
          · exact hP
          · exact le_refl 0
      omega
    · by_cases h2 : f.parseFails = true
      · simp only [get_new_entries, if_neg h1, if_pos h2]
        have h := ih acc hnames'
        by_cases hn : n = f.name
        · rw [if_pos hn]
          have hnm : n ∉ List.map Feed.name rest := by
            rw [hn]
            exact hfn
          rw [if_neg hnm] at h
          omega
        · rw [if_neg hn]
          by_cases hm : n ∈ List.map Feed.name rest
          · rw [if_pos hm] at h ⊢
            omega
          · rw [if_neg hm] at h ⊢
            omega
      · simp only [get_new_entries, if_neg h1, if_neg h2]
        obtain ⟨added, heq, hsrc, hlen⟩ :=
          feedScan_append_spec cfg now existing f.name f.ftype
            (if existing.isEmpty && cfg.FIRST_RUN_SHALLOW
              then pySliceTo cfg.MAX_PER_FEED f.entries.reverse else f.entries.reverse)
            0 acc (by omega)
        rw [heq]
        have h := ih (acc ++ added) hnames'
        rw [List.filter_append, List.length_append] at h
        by_cases hn : n = f.name
        · have hnotin : n ∉ rest.map Feed.name := by
            rw [hn]
            exact hfn
          rw [if_pos hn]
          rw [if_neg hnotin] at h
          have hle : ((added.filter fun it => it.source == n).length : Int)
              ≤ cfg.MAX_PER_FEED - 0 := by
            calc ((added.filter fun it => it.source == n).length : Int)
                ≤ (added.length : Int) := by
                  exact_mod_cast List.length_filter_le _ added
              _ ≤ cfg.MAX_PER_FEED - 0 := hlen
          push_cast at h ⊢
          omega
        · have hfadded : added.filter (fun it => it.source == n) = [] := by
            rw [List.filter_eq_nil_iff]
            intro it hit
            have := hsrc it hit
            simp [this, Ne.symm hn]
          rw [if_neg hn]
          rw [hfadded] at h
          simp only [List.length_nil, Nat.cast_zero, add_zero] at h
          by_cases hm : n ∈ List.map Feed.name rest
          · rw [if_pos hm] at h ⊢
            omega
          · rw [if_neg hm] at h ⊢
            omega

/-- C3: for every feed set, known-uid set and configuration with global cap
`MAX_TOTAL` and per-feed cap `MAX_PER_FEED` (nonnegative, as the defaults
are, and with the configured feed names pairwise distinct as dictionary keys
are), the selection step returns at most `MAX_TOTAL` items overall, and at
most `MAX_PER_FEED` of them come from any single feed. -/
theorem selection_respects_caps (cfg : Config) (now : Int) (existing : List String)
    (feeds : List Feed) (hG : 0 ≤ cfg.MAX_TOTAL) (hP : 0 ≤ cfg.MAX_PER_FEED)
    (hnames : (feeds.map Feed.name).Nodup) :
    ((get_new_entries cfg now existing feeds []).length : Int) ≤ cfg.MAX_TOTAL
    ∧ ∀ n, (((get_new_entries cfg now existing feeds []).filter
        fun it => it.source == n).length : Int) ≤ cfg.MAX_PER_FEED := by
  constructor
  · exact get_new_entries_length_le cfg now existing feeds [] (by simpa using hG)
  · intro n
    have h := get_new_entries_filter_le cfg now existing feeds [] hP hnames n
    simp only [List.filter_nil, List.length_nil, Nat.cast_zero, zero_add] at h
    split at h <;> omega

/-- Witness for C3 on the fixture feed with the default configuration. -/
theorem selection_respects_caps_witness :
    ((0 : Int) ≤ ({} : Config).MAX_TOTAL ∧ (0 : Int) ≤ ({} : Config).MAX_PER_FEED
      ∧ ([feedNoBad].map Feed.name).Nodup)
    ∧ (((get_new_entries {} now0 ["seen"] [feedNoBad] []).length : Int)
        ≤ ({} : Config).MAX_TOTAL
      ∧ ∀ n, (((get_new_entries {} now0 ["seen"] [feedNoBad] []).filter
          fun it => it.source == n).length : Int) ≤ ({} : Config).MAX_PER_FEED) :=
  ⟨⟨by decide, by decide, by decide⟩,
    selection_respects_caps {} now0 ["seen"] [feedNoBad] (by decide) (by decide) (by decide)⟩

/-! ## C4 — recency of the selected items -/

theorem data_mk (l : List Char) : (String.mk l).data = l := rfl

theorem digitChar_digit (d : Nat) (h : d < 10) : isDigitCh (Nat.digitChar d) = true := by
  interval_cases d <;> decide

theorem natDigitsAux_digits (fuel : Nat) :
    ∀ (n : Nat), ∀ c ∈ natDigitsAux fuel n, isDigitCh c = true := by
  induction fuel with
  | zero =>
    intro n c hc
    rw [show natDigitsAux 0 n = [] from rfl] at hc
    exact absurd hc (List.not_mem_nil c)
  | succ fuel ih =>
    intro n c hc
    unfold natDigitsAux at hc
    by_cases h : n < 10
    · rw [if_pos h] at hc
      simp only [List.mem_singleton] at hc
      subst hc
      exact digitChar_digit n h
    · rw [if_neg h] at hc
      rcases List.mem_append.mp hc with hc | hc
      · exact ih (n / 10) c hc
      · simp only [List.mem_singleton] at hc
        subst hc
        exact digitChar_digit (n % 10) (Nat.mod_lt n (by omega))

theorem padNum_digits (w n : Nat) : ∀ c ∈ padNum w n, isDigitCh c = true := by
  intro c hc
  simp only [padNum, natDigits] at hc
  rcases List.mem_append.mp hc with hc | hc
  · rw [List.eq_of_mem_replicate hc]
    decide
  · exact natDigitsAux_digits 30 n c hc

theorem natDigits_ne_nil (n : Nat) : natDigits n ≠ [] := by
  show (if n < 10 then [Nat.digitChar n]
    else natDigitsAux 29 (n / 10) ++ [Nat.digitChar (n % 10)]) ≠ []
  split <;> simp

theorem padNum_ne_nil (w n : Nat) : padNum w n ≠ [] := by
  simp only [padNum]
  intro h
  exact natDigits_ne_nil n (List.append_eq_nil.mp h).2

theorem digitsToNat?_isSome (l : List Char) (h1 : l ≠ [])
    (h2 : ∀ c ∈ l, isDigitCh c = true) : ∃ v, digitsToNat? l = some v := by
  unfold digitsToNat?
  rw [if_neg (by simpa using h1), if_pos (List.all_eq_true.mpr h2)]
  exact ⟨_, rfl⟩

theorem padNum_parses (w n : Nat) : ∃ v, digitsToNat? (padNum w n) = some v :=
  digitsToNat?_isSome _ (padNum_ne_nil w n) (padNum_digits w n)

theorem splitOnChar_cons (sep c : Char) (rest : List Char) :
    splitOnChar sep (c :: rest)
      = if c = sep then [] :: splitOnChar sep rest
        else match splitOnChar sep rest with
          | [] => [[c]]
          | h2 :: t => (c :: h2) :: t := rfl

theorem splitOnChar_no_sep (sep : Char) (l : List Char) (h : ∀ c ∈ l, c ≠ sep) :
    splitOnChar sep l = [l] := by
  induction l with
  | nil => rfl
  | cons c rest ih =>
    rw [splitOnChar_cons, if_neg (h c (List.mem_cons_self c rest)),
      ih fun c2 hc2 => h c2 (List.mem_cons_of_mem c hc2)]

theorem splitOnChar_append (sep : Char) (a b : List Char) (h : ∀ c ∈ a, c ≠ sep) :
    splitOnChar sep (a ++ sep :: b) = a :: splitOnChar sep b := by
  induction a with
  | nil =>
    simp only [List.nil_append]
    rw [splitOnChar_cons, if_pos rfl]
  | cons c rest ih =>
    simp only [List.cons_append]
    rw [splitOnChar_cons, if_neg (h c (List.mem_cons_self c rest)),
      ih fun c2 hc2 => h c2 (List.mem_cons_of_mem c hc2)]

theorem isDigitCh_ne (c : Char) (h : isDigitCh c = true) :
    c ≠ 'T' ∧ c ≠ '-' ∧ c ≠ ':' ∧ c ≠ '+' ∧ c ≠ 'Z' := by
  refine ⟨?_, ?_, ?_, ?_, ?_⟩ <;>
    · intro he
      subst he
      exact absurd h (by decide)

theorem fromisoformat_shape (a b c0 d e f : Nat) :
    ∃ v, fromisoformatL (padNum 4 a ++ '-' :: (padNum 2 b ++ '-' :: (padNum 2 c0 ++ 'T' ::
      (padNum 2 d ++ ':' :: (padNum 2 e ++ ':' ::
        (padNum 2 f ++ '+' :: '0' :: '0' :: ':' :: '0' :: '0' :: [])))))) = some v := by
  have hBC : (padNum 2 d ++ ':' :: (padNum 2 e ++ ':' ::
        (padNum 2 f ++ '+' :: '0' :: '0' :: ':' :: '0' :: '0' :: [])))
      = (padNum 2 d ++ ':' :: (padNum 2 e ++ ':' :: padNum 2 f))
          ++ '+' :: ('0' :: '0' :: ':' :: '0' :: '0' :: []) := by
    simp [List.append_assoc]
  have hLA : (padNum 4 a ++ '-' :: (padNum 2 b ++ '-' :: (padNum 2 c0 ++ 'T' ::
        (padNum 2 d ++ ':' :: (padNum 2 e ++ ':' ::
          (padNum 2 f ++ '+' :: '0' :: '0' :: ':' :: '0' :: '0' :: []))))))
      = (padNum 4 a ++ '-' :: (padNum 2 b ++ '-' :: padNum 2 c0))
          ++ 'T' :: (padNum 2 d ++ ':' :: (padNum 2 e ++ ':' ::
            (padNum 2 f ++ '+' :: '0' :: '0' :: ':' :: '0' :: '0' :: []))) := by
    simp [List.append_assoc]
  have hAT : ∀ ch ∈ (padNum 4 a ++ '-' :: (padNum 2 b ++ '-' :: padNum 2 c0)), ch ≠ 'T' := by
    intro ch hch
    simp only [List.mem_append, List.mem_cons] at hch
    rcases hch with h | h | h | h | h
    · exact (isDigitCh_ne _ (padNum_digits 4 a ch h)).1
    · subst h; decide
    · exact (isDigitCh_ne _ (padNum_digits 2 b ch h)).1
    · subst h; decide
    · exact (isDigitCh_ne _ (padNum_digits 2 c0 ch h)).1
  have hBT : ∀ ch ∈ (padNum 2 d ++ ':' :: (padNum 2 e ++ ':' ::
      (padNum 2 f ++ '+' :: '0' :: '0' :: ':' :: '0' :: '0' :: []))), ch ≠ 'T' := by
    intro ch hch
    simp only [List.mem_append, List.mem_cons, List.not_mem_nil, or_false] at hch
    rcases hch with h | h | h | h | h | h | h | h | h | h | h <;>
      first
        | (subst h; decide)
        | exact (isDigitCh_ne _ (padNum_digits _ _ _ h)).1
  have hCplus : ∀ ch ∈ (padNum 2 d ++ ':' :: (padNum 2 e ++ ':' :: padNum 2 f)), ch ≠ '+' := by
    intro ch hch
    simp only [List.mem_append, List.mem_cons] at hch
    rcases hch with h | h | h | h | h <;>
      first
        | (subst h; decide)
        | exact (isDigitCh_ne _ (padNum_digits _ _ _ h)).2.2.2.1
  have hDdash : ∀ ch ∈ padNum 4 a, ch ≠ '-' := fun ch h =>
    (isDigitCh_ne _ (padNum_digits 4 a ch h)).2.1
  have hBdash : ∀ ch ∈ padNum 2 b, ch ≠ '-' := fun ch h =>
    (isDigitCh_ne _ (padNum_digits 2 b ch h)).2.1
  have hCdash : ∀ ch ∈ padNum 2 c0, ch ≠ '-' := fun ch h =>
    (isDigitCh_ne _ (padNum_digits 2 c0 ch h)).2.1
  have hDcolon : ∀ ch ∈ padNum 2 d, ch ≠ ':' := fun ch h =>
    (isDigitCh_ne _ (padNum_digits 2 d ch h)).2.2.1
  have hEcolon : ∀ ch ∈ padNum 2 e, ch ≠ ':' := fun ch h =>
    (isDigitCh_ne _ (padNum_digits 2 e ch h)).2.2.1
  have hFcolon : ∀ ch ∈ padNum 2 f, ch ≠ ':' := fun ch h =>
    (isDigitCh_ne _ (padNum_digits 2 f ch h)).2.2.1
  have h1 : splitOnChar 'T' (padNum 4 a ++ '-' :: (padNum 2 b ++ '-' :: (padNum 2 c0 ++ 'T' ::
      (padNum 2 d ++ ':' :: (padNum 2 e ++ ':' ::
        (padNum 2 f ++ '+' :: '0' :: '0' :: ':' :: '0' :: '0' :: []))))))
      = [padNum 4 a ++ '-' :: (padNum 2 b ++ '-' :: padNum 2 c0),
         padNum 2 d ++ ':' :: (padNum 2 e ++ ':' ::
           (padNum 2 f ++ '+' :: '0' :: '0' :: ':' :: '0' :: '0' :: []))] := by
    rw [hLA, splitOnChar_append 'T' _ _ hAT, splitOnChar_no_sep 'T' _ hBT]
  have h2 : splitOnChar '-' (padNum 4 a ++ '-' :: (padNum 2 b ++ '-' :: padNum 2 c0))
      = [padNum 4 a, padNum 2 b, padNum 2 c0] := by
    rw [splitOnChar_append '-' _ _ hDdash, splitOnChar_append '-' _ _ hBdash,
      splitOnChar_no_sep '-' _ hCdash]
  have h3 : splitOnChar '+' (padNum 2 d ++ ':' :: (padNum 2 e ++ ':' ::
      (padNum 2 f ++ '+' :: '0' :: '0' :: ':' :: '0' :: '0' :: [])))
      = [padNum 2 d ++ ':' :: (padNum 2 e ++ ':' :: padNum 2 f),
         '0' :: '0' :: ':' :: '0' :: '0' :: []] := by
    rw [hBC, splitOnChar_append '+' _ _ hCplus, splitOnChar_no_sep '+' _ (by decide)]
  have h4 : splitOnChar ':' (padNum 2 d ++ ':' :: (padNum 2 e ++ ':' :: padNum 2 f))
      = [padNum 2 d, padNum 2 e, padNum 2 f] := by
    rw [splitOnChar_append ':' _ _ hDcolon, splitOnChar_append ':' _ _ hEcolon,
      splitOnChar_no_sep ':' _ hFcolon]
  have h5 : splitOnChar ':' ('0' :: '0' :: ':' :: '0' :: '0' :: [])
      = [['0', '0'], ['0', '0']] := by decide
  obtain ⟨v1, hv1⟩ := padNum_parses 4 a
  obtain ⟨v2, hv2⟩ := padNum_parses 2 b
  obtain ⟨v3, hv3⟩ := padNum_parses 2 c0
  obtain ⟨v4, hv4⟩ := padNum_parses 2 d
  obtain ⟨v5, hv5⟩ := padNum_parses 2 e
  obtain ⟨v6, hv6⟩ := padNum_parses 2 f
  have hO : digitsToNat? ['0', '0'] = some 0 := by decide
  simp only [fromisoformatL, h1, h2, h3, h4, h5, hv1, hv2, hv3, hv4, hv5, hv6, hO]
  exact ⟨_, rfl⟩

theorem isoFromEpoch_parses (t : Int) : ∃ v, fromisoformat (isoFromEpoch t) = some v := by
  simp only [fromisoformat, isoFromEpoch, data_mk]
  exact fromisoformat_shape _ _ _ _ _ _

theorem isoFromEpoch_noZ (t : Int) : ∀ ch ∈ (isoFromEpoch t).data, ch ≠ 'Z' := by
  intro ch hch
  simp only [isoFromEpoch, data_mk] at hch
  simp only [List.mem_append, List.mem_cons, List.not_mem_nil, or_false] at hch
  rcases hch with h | h | h | h | h | h | h | h | h | h | h | h | h | h | h | h | h <;>
    first
      | (subst h; decide)
      | exact (isDigitCh_ne _ (padNum_digits _ _ _ h)).2.2.2.2

theorem flatMap_id_of {α : Type} (f : α → List α) (l : List α)
    (h : ∀ c ∈ l, f c = [c]) : l.flatMap f = l := by
  induction l with
  | nil => rfl
  | cons c rest ih =>
    rw [List.flatMap_cons, h c (List.mem_cons_self c rest),
      ih fun x hx => h x (List.mem_cons_of_mem c hx)]
    rfl

theorem replaceZulu_id (s : String) (h : ∀ ch ∈ s.data, ch ≠ 'Z') : replaceZulu s = s := by
  unfold replaceZulu
  rw [flatMap_id_of _ _ fun ch hch => by rw [if_neg (h ch hch)]]

theorem is_recent_some_bound (now : Int) (s : String) (days : Int) (v : Int)
    (hd : 0 < days) (hv : fromisoformat (replaceZulu s) = some v)
    (h : _is_recent now s days = true) : now - days * 86400 ≤ v := by
  unfold _is_recent at h
  rw [if_neg (by omega), hv] at h
  exact of_decide_eq_true h

theorem processEntry_inv (now days : Int) (existing : List String) (name ftype : String)
    (e : RawEntry) (it : Item)
    (h : processEntry now days existing name ftype e = .ok (some it)) :
    _is_recent now it.published days = true ∧ ∃ t, it.published = isoFromEpoch t := by
  simp only [processEntry] at h
  repeat' split at h
  all_goals first
    | exact Except.noConfusion h
    | exact Option.noConfusion (Except.ok.inj h)
    | (simp only [Except.ok.injEq, Option.some.injEq] at h
       subst h
       refine ⟨?_, ⟨_, rfl⟩⟩
       simp_all)

theorem feedScan_mem (cfg : Config) (now : Int) (existing : List String)
    (name ftype : String) (P : Item → Prop)
    (hsel : ∀ e it2, processEntry now cfg.RECENCY_DAYS existing name ftype e = .ok (some it2) →
      P it2) :
    ∀ (entries : List RawEntry) (picked : Int) (acc : List Item),
      (∀ it ∈ acc, P it) →
      ∀ it ∈ feedScan cfg now existing name ftype entries picked acc, P it := by
  intro entries
  induction entries with
  | nil =>
    intro picked acc hacc it hit
    simp only [feedScan] at hit
    exact hacc it hit
  | cons e2 rest ih =>
    intro picked acc hacc it hit
    by_cases h1 : cfg.MAX_TOTAL ≤ (acc.length : Int)
    · simp only [feedScan, if_pos h1] at hit
      exact hacc it hit
    · by_cases h2 : cfg.MAX_PER_FEED ≤ picked
      · simp only [feedScan, if_neg h1, if_pos h2] at hit
        exact hacc it hit
      · cases hpe : processEntry now cfg.RECENCY_DAYS existing name ftype e2 with
        | error u =>
          simp only [feedScan, if_neg h1, if_neg h2, hpe] at hit
          exact hacc it hit
        | ok o =>
          cases o with
          | none =>
            simp only [feedScan, if_neg h1, if_neg h2, hpe] at hit
            exact ih picked acc hacc it hit
          | some it2 =>
            simp only [feedScan, if_neg h1, if_neg h2, hpe] at hit
            refine ih (picked + 1) (acc ++ [it2]) ?_ it hit
            intro x hx
            rcases List.mem_append.mp hx with hx | hx
            · exact hacc x hx
            · rw [List.mem_singleton] at hx
              subst hx
              exact hsel e2 x hpe

theorem get_new_entries_mem (cfg : Config) (now : Int) (existing : List String)
    (P : Item → Prop)
    (hsel : ∀ (name ftype : String) (e : RawEntry) (it2 : Item),
      processEntry now cfg.RECENCY_DAYS existing name ftype e = .ok (some it2) → P it2) :
    ∀ (feeds : List Feed) (acc : List Item), (∀ it ∈ acc, P it) →
      ∀ it ∈ get_new_entries cfg now existing feeds acc, P it := by
  intro feeds
  induction feeds with
  | nil =>
    intro acc hacc it hit
    simp only [get_new_entries] at hit
    exact hacc it hit
  | cons f2 rest ih =>
    intro acc hacc it hit
    by_cases h1 : cfg.MAX_TOTAL ≤ (acc.length : Int)
    · simp only [get_new_entries, if_pos h1] at hit
      exact hacc it hit
    · by_cases h2 : f2.parseFails = true
      · simp only [get_new_entries, if_neg h1, if_pos h2] at hit
        exact ih acc hacc it hit
      · simp only [get_new_entries, if_neg h1, if_neg h2] at hit
        exact ih _
          (feedScan_mem cfg now existing f2.name f2.ftype P (hsel f2.name f2.ftype) _ 0 acc hacc)
          it hit

/-- C4: with a positive recency window every selected item carries a
`published` timestamp that parses (after the `Z` normalisation `_is_recent`
itself applies) to an instant no older than `now` minus the window; and with
a non-positive window the recency filter rejects nothing at all. -/
theorem selection_recency (cfg : Config) (now : Int) (existing : List String)
    (feeds : List Feed) (hd : 0 < cfg.RECENCY_DAYS) :
    (∀ it ∈ get_new_entries cfg now existing feeds [],
      ∃ dt, fromisoformat (replaceZulu it.published) = some dt
        ∧ now - cfg.RECENCY_DAYS * 86400 ≤ dt)
    ∧ ∀ (now2 : Int) (s : String) (days : Int), days ≤ 0 → _is_recent now2 s days = true := by
  constructor
  · refine get_new_entries_mem cfg now existing _ ?_ feeds [] (by simp)
    intro name ftype e it2 hpe
    obtain ⟨hrec, t, ht⟩ := processEntry_inv now cfg.RECENCY_DAYS existing name ftype e it2 hpe
    obtain ⟨v, hv⟩ : ∃ v, fromisoformat (replaceZulu it2.published) = some v := by
      rw [ht, replaceZulu_id _ (isoFromEpoch_noZ t)]
      exact isoFromEpoch_parses t
    exact ⟨v, hv, is_recent_some_bound now it2.published cfg.RECENCY_DAYS v hd hv hrec⟩
  · intro now2 s days hdle
    unfold _is_recent
    rw [if_pos hdle]

/-- Witness for C4 with the default 14-day window on the fixture feed. -/
theorem selection_recency_witness :
    (0 : Int) < ({} : Config).RECENCY_DAYS
    ∧ ((∀ it ∈ get_new_entries {} now0 ["seen"] [feedNoBad] [],
        ∃ dt, fromisoformat (replaceZulu it.published) = some dt
          ∧ now0 - ({} : Config).RECENCY_DAYS * 86400 ≤ dt)
      ∧ ∀ (now2 : Int) (s : String) (days : Int), days ≤ 0 → _is_recent now2 s days = true) :=
  ⟨by decide, selection_recency {} now0 ["seen"] [feedNoBad] (by decide)⟩

/-! ## C7 — enrichment emits every begun item, defaulted on failure -/

theorem processLoop_getElem? (budgetHit : Nat → Bool)
    (oc : Nat → Except Unit (List (String × JVal))) :
    ∀ (entries : List Item) (i0 : Nat) (rem : Int) (acc : List Item) (j : Nat) (x : Item),
      (processLoop budgetHit oc entries i0 rem acc)[j]? = some x →
      (j < acc.length ∧ acc[j]? = some x)
      ∨ (acc.length ≤ j ∧ ∃ e, entries[j - acc.length]? = some e
          ∧ x = enrichStep e (oc (i0 + (j - acc.length)))) := by
  intro entries
  induction entries with
  | nil =>
    intro i0 rem acc j x h
    simp only [processLoop] at h
    obtain ⟨hlt, -⟩ := List.getElem?_eq_some_iff.mp h
    exact Or.inl ⟨hlt, h⟩
  | cons e rest ih =>
    intro i0 rem acc j x h
    simp only [processLoop] at h
    by_cases h1 : rem ≤ 0
    · rw [if_pos h1] at h
      obtain ⟨hlt, -⟩ := List.getElem?_eq_some_iff.mp h
      exact Or.inl ⟨hlt, h⟩
    · rw [if_neg h1] at h
      by_cases h2 : budgetHit i0 = true
      · rw [if_pos h2] at h
        obtain ⟨hlt, -⟩ := List.getElem?_eq_some_iff.mp h
        exact Or.inl ⟨hlt, h⟩
      · rw [if_neg h2] at h
        rcases ih (i0 + 1) (rem - 1) (acc ++ [enrichStep e (oc i0)]) j x h with
          ⟨hj, hget⟩ | ⟨hj, e2, hget, hx⟩
        · rw [List.length_append, List.length_singleton] at hj
          rcases Nat.lt_or_ge j acc.length with hj2 | hj2
          · refine Or.inl ⟨hj2, ?_⟩
            rw [List.getElem?_append, if_pos hj2] at hget
            exact hget
          · have hj3 : j = acc.length := by omega
            subst hj3
            refine Or.inr ⟨le_refl _, e, ?_, ?_⟩
            · rw [Nat.sub_self]
              exact List.getElem?_cons_zero
            · rw [List.getElem?_append_right hj2, Nat.sub_self] at hget
              simp only [List.getElem?_cons_zero, Option.some.injEq] at hget
              rw [Nat.sub_self, Nat.add_zero]
              exact hget.symm
        · rw [List.length_append, List.length_singleton] at hj hget hx
          refine Or.inr ⟨by omega, e2, ?_, ?_⟩
          · have heq : j - acc.length = (j - (acc.length + 1)) + 1 := by omega
            rw [heq, List.getElem?_cons_succ]
            exact hget
          · rw [hx]
            have heq : i0 + 1 + (j - (acc.length + 1)) = i0 + (j - acc.length) := by omega
            rw [heq]

/-- C7: every item the enrichment loop begins processing (that is, every item
of the output list — cut-offs by the remaining-budget counter or the time
budget simply end the output) appears exactly as `enrichStep` leaves it: its
`content_raw` is popped in every case, and when its generator attempt raised,
it carries the fully defaulted coerced result (placeholder summary, three
empty topic strings, neutral sentiment). -/
theorem enrichment_emits_coerced (cfg : Config) (budgetHit : Nat → Bool)
    (oc : Nat → Except Unit (List (String × JVal))) (entries : List Item)
    (i : Nat) (x : Item)
    (h : (process_with_gemini cfg budgetHit oc entries)[i]? = some x) :
    x.content_raw = none
    ∧ (oc i = .error () →
        x.summary_ai = some "Zusammenfassung konnte nicht erstellt werden."
        ∧ x.topics = some ["", "", ""]
        ∧ x.sentiment = some "neutral") := by
  unfold process_with_gemini at h
  rcases processLoop_getElem? budgetHit oc entries 0 cfg.MAX_TOTAL [] i x h with
    ⟨hj, -⟩ | ⟨-, e, -, hx⟩
  · simp at hj
  · rw [List.length_nil, Nat.sub_zero, Nat.zero_add] at hx
    subst hx
    constructor
    · cases oc i <;> rfl
    · intro herr
      rw [herr]
      exact ⟨rfl, rfl, rfl⟩

/-- Witness for C7: a single item whose generator attempt raises. -/
theorem enrichment_emits_coerced_witness :
    (process_with_gemini {} (fun _ => false) (fun _ => .error ()) [itemP])[0]? = some itemPdone
    ∧ (itemPdone.content_raw = none
        ∧ ((fun _ => (Except.error () : Except Unit (List (String × JVal)))) 0 = .error () →
            itemPdone.summary_ai = some "Zusammenfassung konnte nicht erstellt werden."
            ∧ itemPdone.topics = some ["", "", ""]
            ∧ itemPdone.sentiment = some "neutral")) :=
  ⟨rfl, enrichment_emits_coerced {} (fun _ => false) (fun _ => .error ()) [itemP] 0 itemPdone rfl⟩

/-! ## C6 — uid uniqueness across the merged store -/

theorem dictInsert_mem (m : List (JKey × JVal)) (k : JKey) (v : JVal) :
    ∀ p ∈ dictInsert m k v, p = (k, v) ∨ p ∈ m := by
  induction m with
  | nil =>
    intro p hp
    simp only [dictInsert, List.mem_singleton] at hp
    exact Or.inl hp
  | cons q t ih =>
    intro p hp
    simp only [dictInsert] at hp
    split at hp
    · rcases List.mem_cons.mp hp with hp | hp
      · exact Or.inl hp
      · exact Or.inr (List.mem_cons_of_mem q hp)
    · rcases List.mem_cons.mp hp with hp | hp
      · exact Or.inr (by rw [hp]; exact List.mem_cons_self q t)
      · rcases ih p hp with hp2 | hp2
        · exact Or.inl hp2
        · exact Or.inr (List.mem_cons_of_mem q hp2)

theorem dictInsert_keys_subset (m : List (JKey × JVal)) (k : JKey) (v : JVal) :
    ∀ k2 ∈ (dictInsert m k v).map Prod.fst, k2 = k ∨ k2 ∈ m.map Prod.fst := by
  intro k2 hk2
  rcases List.mem_map.mp hk2 with ⟨p, hp, hfst⟩
  rcases dictInsert_mem m k v p hp with hp2 | hp2
  · subst hp2
    exact Or.inl hfst.symm
  · exact Or.inr (hfst ▸ List.mem_map_of_mem Prod.fst hp2)

theorem dictInsert_nodup (m : List (JKey × JVal)) (k : JKey) (v : JVal)
    (h : (m.map Prod.fst).Nodup) : ((dictInsert m k v).map Prod.fst).Nodup := by
  induction m with
  | nil => simp [dictInsert]
  | cons q t ih =>
    rw [List.map_cons, List.nodup_cons] at h
    obtain ⟨hq, ht⟩ := h
    by_cases hqk : q.1 == k
    · simp only [dictInsert, if_pos hqk, List.map_cons, List.nodup_cons]
      exact ⟨(eq_of_beq hqk) ▸ hq, ht⟩
    · simp only [dictInsert, if_neg hqk, List.map_cons, List.nodup_cons]
      refine ⟨?_, ih ht⟩
      intro hmem
      rcases dictInsert_keys_subset t k v q.1 hmem with h2 | h2
      · exact absurd (beq_iff_eq.mpr h2) hqk
      · exact hq h2

theorem dictInsert_wf (m : List (JKey × JVal)) (item : List (String × JVal)) (k : JKey)
    (hwf : StoreWF m) (ht : truthy (itemKey (.obj item)) = true)
    (hk : toKey (itemKey (.obj item)) = .ok k) :
    StoreWF (dictInsert m k (.obj item)) := by
  obtain ⟨hnd, hmem⟩ := hwf
  refine ⟨dictInsert_nodup m k _ hnd, ?_⟩
  intro p hp
  rcases dictInsert_mem m k _ p hp with hp2 | hp2
  · subst hp2
    exact ⟨ht, hk⟩
  · exact hmem p hp2

theorem storeInsert_wf (m m2 : List (JKey × JVal)) (item : List (String × JVal))
    (hwf : StoreWF m) (h : storeInsert m item = .ok m2) : StoreWF m2 := by
  simp only [storeInsert] at h
  by_cases ht : truthy (itemKey (.obj item)) = true
  · rw [if_pos ht] at h
    cases hk : toKey (itemKey (.obj item)) with
    | ok k =>
      rw [hk] at h
      simp only [Except.ok.injEq] at h
      subst h
      exact dictInsert_wf m item k hwf ht hk
    | error u =>
      rw [hk] at h
      exact Except.noConfusion h
  · rw [if_neg ht] at h
    simp only [Except.ok.injEq] at h
    subst h
    exact hwf

theorem loadItems_wf : ∀ (items : List JVal) (m m2 : List (JKey × JVal)),
    StoreWF m → loadItems items m = .ok m2 → StoreWF m2 := by
  intro items
  induction items with
  | nil =>
    intro m m2 hwf h
    simp only [loadItems, Except.ok.injEq] at h
    subst h
    exact hwf
  | cons it rest ih =>
    intro m m2 hwf h
    cases it with
    | obj kvs =>
      simp only [loadItems] at h
      cases hsi : storeInsert m kvs with
      | ok m1 =>
        rw [hsi] at h
        exact ih m1 m2 (storeInsert_wf m m1 kvs hwf hsi) h
      | error u =>
        rw [hsi] at h
        exact Except.noConfusion h
    | null => exact Except.noConfusion h
    | bool b => exact Except.noConfusion h
    | num n => exact Except.noConfusion h
    | str s => exact Except.noConfusion h
    | arr xs => exact Except.noConfusion h

theorem storeWF_nil : StoreWF [] := ⟨List.nodup_nil, by simp⟩

theorem load_wf (fs : FileState) (m : List (JKey × JVal))
    (h : load_existing_data fs = .ok m) : StoreWF m := by
  cases fs with
  | absent =>
    simp only [load_existing_data, Except.ok.injEq] at h
    subst h
    exact storeWF_nil
  | ioError => exact Except.noConfusion h
  | content p =>
    cases p with
    | none =>
      simp only [load_existing_data, Except.ok.injEq] at h
      subst h
      exact storeWF_nil
    | some j =>
      cases j with
      | arr items => exact loadItems_wf items [] m storeWF_nil h
      | obj kvs =>
        simp only [load_existing_data] at h
        split at h
        · simp only [Except.ok.injEq] at h
          subst h
          exact storeWF_nil
        · exact Except.noConfusion h
      | str s =>
        simp only [load_existing_data] at h
        split at h
        · simp only [Except.ok.injEq] at h
          subst h
          exact storeWF_nil
        · exact Except.noConfusion h
      | null => exact Except.noConfusion h
      | bool b => exact Except.noConfusion h
      | num n => exact Except.noConfusion h

theorem mergeNew_wf : ∀ (processed : List (List (String × JVal))) (m m2 : List (JKey × JVal)),
    StoreWF m → mergeNew m processed = .ok m2 → StoreWF m2 := by
  intro processed
  induction processed with
  | nil =>
    intro m m2 hwf h
    simp only [mergeNew, Except.ok.injEq] at h
    subst h
    exact hwf
  | cons item rest ih =>
    intro m m2 hwf h
    simp only [mergeNew] at h
    cases hsi : storeInsert m item with
    | ok m1 =>
      rw [hsi] at h
      exact ih m1 m2 (storeInsert_wf m m1 item hwf hsi) h
    | error u =>
      rw [hsi] at h
      exact Except.noConfusion h

theorem wf_distinct (m : List (JKey × JVal)) (hwf : StoreWF m) (i j : Nat)
    (hi : i < m.length) (hj : j < m.length) (hne : i ≠ j)
    (hti : truthy (objGetJ (m[i]).2 "uid") = true)
    (htj : truthy (objGetJ (m[j]).2 "uid") = true) :
    objGetJ (m[i]).2 "uid" ≠ objGetJ (m[j]).2 "uid" := by
  intro heq
  obtain ⟨hnd, hmem⟩ := hwf
  have hpi := hmem (m[i]) (List.getElem_mem hi)
  have hpj := hmem (m[j]) (List.getElem_mem hj)
  have hki : itemKey (m[i]).2 = objGetJ (m[i]).2 "uid" := by
    unfold itemKey pyOrJ
    rw [if_pos hti]
  have hkj : itemKey (m[j]).2 = objGetJ (m[j]).2 "uid" := by
    unfold itemKey pyOrJ
    rw [if_pos htj]
  have h1 := hpi.2
  have h2 := hpj.2
  rw [hki, heq, ← hkj, h2] at h1
  simp only [Except.ok.injEq] at h1
  have hmi : i < (m.map Prod.fst).length := by
    rw [List.length_map]
    exact hi
  have hmj : j < (m.map Prod.fst).length := by
    rw [List.length_map]
    exact hj
  have hkeys : (m.map Prod.fst)[i] = (m.map Prod.fst)[j] := by
    rw [List.getElem_map, List.getElem_map]
    exact h1.symm
  exact hne ((List.Nodup.getElem_inj_iff hnd).mp hkeys)

theorem dictInsert_lookup (m : List (JKey × JVal)) (k : JKey) (v : JVal) :
    dictLookup (dictInsert m k v) k = some v := by
  induction m with
  | nil => simp [dictInsert, dictLookup]
  | cons q t ih =>
    by_cases hqk : q.1 == k
    · simp only [dictInsert, if_pos hqk]
      simp [dictLookup]
    · simp only [dictInsert, if_neg hqk]
      unfold dictLookup
      rw [List.find?_cons_of_neg _ (by simpa using hqk)]
      exact ih

/-- C6 counterexample: the claim says no two items of the merged persisted
collection share the same `uid`.  A prior file with two legacy items whose
`uid` is the empty (falsy) string but whose links differ stores them under
their link keys; after merging one new item, the collection holds two
distinct items with the same `uid` value `""`. -/
theorem merge_uid_shared_counterexample :
    load_existing_data fileLegacy
      = .ok [(JKey.str "B", legacyB), (JKey.str "C", legacyC)]
    ∧ mergeNew [(JKey.str "B", legacyB), (JKey.str "C", legacyC)]
        [[("uid", JVal.str "N"), ("link", JVal.str "L")]]
      = .ok [(JKey.str "B", legacyB), (JKey.str "C", legacyC),
             (JKey.str "N", JVal.obj [("uid", JVal.str "N"), ("link", JVal.str "L")])]
    ∧ objGetJ legacyB "uid" = objGetJ legacyC "uid"
    ∧ legacyB ≠ legacyC := by
  refine ⟨rfl, rfl, rfl, ?_⟩
  intro h
  simp [legacyB, legacyC] at h

/-- C6 amended: after the merge step, any two distinct items of the persisted
collection whose `uid` value is truthy carry different uids (each such item
is stored under exactly its own uid key, and store keys are pairwise
distinct); items with an absent or falsy uid are keyed by their link and may
coincide in uid.  Storing at an existing key wholly replaces the stored
item (last write wins). -/
theorem merge_uid_unique (fs : FileState) (processed : List (List (String × JVal)))
    (m merged : List (JKey × JVal))
    (hload : load_existing_data fs = .ok m)
    (hmerge : mergeNew m processed = .ok merged) :
    (∀ (i j : Nat) (hi : i < merged.length) (hj : j < merged.length), i ≠ j →
      truthy (objGetJ (merged[i]).2 "uid") = true →
      truthy (objGetJ (merged[j]).2 "uid") = true →
      objGetJ (merged[i]).2 "uid" ≠ objGetJ (merged[j]).2 "uid")
    ∧ ∀ (m2 : List (JKey × JVal)) (k : JKey) (v : JVal),
        dictLookup (dictInsert m2 k v) k = some v := by
  have hwf := mergeNew_wf processed m merged (load_wf fs m hload) hmerge
  exact ⟨fun i j hi hj hne hti htj => wf_distinct merged hwf i j hi hj hne hti htj,
    fun m2 k v => dictInsert_lookup m2 k v⟩

/-- Witness for the amended C6: an empty prior store merged with one new
item. -/
theorem merge_uid_unique_witness :
    load_existing_data .absent = .ok []
    ∧ mergeNew [] [[("uid", JVal.str "A")]]
        = .ok [(JKey.str "A", JVal.obj [("uid", JVal.str "A")])]
    ∧ ((∀ (i j : Nat)
          (hi : i < [(JKey.str "A", JVal.obj [("uid", JVal.str "A")])].length)
          (hj : j < [(JKey.str "A", JVal.obj [("uid", JVal.str "A")])].length), i ≠ j →
          truthy (objGetJ ([(JKey.str "A", JVal.obj [("uid", JVal.str "A")])][i]).2 "uid")
            = true →
          truthy (objGetJ ([(JKey.str "A", JVal.obj [("uid", JVal.str "A")])][j]).2 "uid")
            = true →
          objGetJ ([(JKey.str "A", JVal.obj [("uid", JVal.str "A")])][i]).2 "uid"
            ≠ objGetJ ([(JKey.str "A", JVal.obj [("uid", JVal.str "A")])][j]).2 "uid")
        ∧ ∀ (m2 : List (JKey × JVal)) (k : JKey) (v : JVal),
            dictLookup (dictInsert m2 k v) k = some v) :=
  ⟨rfl, rfl, merge_uid_unique .absent [[("uid", JVal.str "A")]] []
    [(JKey.str "A", JVal.obj [("uid", JVal.str "A")])] rfl rfl⟩

/-! ## C10 — unparseable timestamps count as recent -/

/-- C10: for every positive window and every string the ISO-8601 parse
rejects, `_is_recent` catches the failure and returns `True`, so such an
entry passes the recency filter rather than being rejected or raising. -/
theorem is_recent_unparseable_true (now : Int) (s : String) (days : Int)
    (hd : 0 < days) (hp : fromisoformat (replaceZulu s) = none) :
    _is_recent now s days = true := by
  unfold _is_recent
  rw [hp]
  split <;> rfl

/-- Witness for C10 on a garbage timestamp string. -/
theorem is_recent_unparseable_true_witness :
    ((0 : Int) < 1 ∧ fromisoformat (replaceZulu "garbage") = none)
    ∧ _is_recent 0 "garbage" 1 = true :=
  ⟨⟨by decide, rfl⟩, is_recent_unparseable_true 0 "garbage" 1 (by decide) rfl⟩

end KiNews
